import Mathlib

/-
Verification of the AFI tracker core: the snapshot diffing algorithm
(`get_member_delta` in src/utils.py) and the time-indexed snapshot store
(`insert_rating`, `get_last_rating`, `get_rating_at_time` in src/models.py),
shallowly embedded in Lean 4.
-/

namespace AfiTracker

/-- A member entry `(member_name, rating)` as in the Python `List[Tuple[str, int]]`. -/
abbrev Member := String × Int

/-- A delta entry `(member_name, current_rating, delta)` as returned by
`get_member_delta`. -/
abbrev DeltaEntry := String × Int × Int

/-! ### Python dict semantics

`old_dict = dict(old_members)` builds a mapping whose keys are in first-insertion
order and whose value for a repeated key is the last one inserted.  We model a
dict as an association list with those exact semantics. -/

/-- One step of Python dict construction: inserting `(k, v)` updates the value in
place if `k` is already a key, otherwise appends the pair at the end. -/
def dictInsert (d : List Member) (kv : Member) : List Member :=
  if d.any (fun p => p.1 = kv.1) then
    d.map (fun p => if p.1 = kv.1 then (p.1, kv.2) else p)
  else
    d ++ [kv]

/-- `pyDict l` models Python's `dict(l)` for a list of pairs. -/
def pyDict (l : List Member) : List Member :=
  l.foldl dictInsert []

/-- `dictLookup d n` models `d.get(n)`: the value at key `n`, if present. -/
def dictLookup (d : List Member) (n : String) : Option Int :=
  (d.find? (fun p => p.1 = n)).map (fun p => p.2)

/-- `dictContains d n` models `n in d` for a Python dict. -/
def dictContains (d : List Member) (n : String) : Bool :=
  d.any (fun p => p.1 = n)

/-! ### Python's `sorted(..., key=lambda n: new_dict[n], reverse=True)`

Python's sort is stable, and `reverse=True` keeps equal-key elements in their
original relative order.  A stable descending sort is implemented below as an
insertion sort; since stable sorts are unique as functions, this computes the
same list as Timsort.  We sort the `(name, rating)` pairs of the dict rather
than the bare names; as each dict key carries exactly one rating this is the
same ordering. -/

/-- Insert `x` in front of the first element whose rating is not larger,
keeping earlier equal-rated elements behind `x` never: `x` goes before every
element of rating `≤ x.2` so a stable descending order results. -/
def insertByRating (x : Member) : List Member → List Member
  | [] => [x]
  | y :: ys => if x.2 ≥ y.2 then x :: y :: ys else y :: insertByRating x ys

/-- Stable sort of member pairs by rating, descending. -/
def sortByRatingDesc : List Member → List Member
  | [] => []
  | x :: xs => insertByRating x (sortByRatingDesc xs)

/-! ### The delta engine (src/utils.py, `get_member_delta`) -/

/-- The delta computed for a name of the new snapshot:
`new_rating - old_rating` if the member is present in `old_dict`, and
`new_rating` for a new member (the `old_rating is None` branch). -/
def deltaOf (old_dict : List Member) (p : Member) : Int :=
  match dictLookup old_dict p.1 with
  | some old_rating => p.2 - old_rating
  | none => p.2

/-- The loop body of `get_member_delta`: an entry `(name, new_rating, delta)`
is produced unless `delta == 0`, in which case the member is dropped. -/
def makeEntry (old_dict : List Member) (p : Member) : Option DeltaEntry :=
  if deltaOf old_dict p ≠ 0 then some (p.1, p.2, deltaOf old_dict p) else none

/-- The leaver list comprehension: members of `old_dict` (in dict order) whose
name is not a key of `new_dict`, reported as `(name, old_rating, -old_rating)`. -/
def leaverEntries (old_dict new_dict : List Member) : List DeltaEntry :=
  (old_dict.filter (fun p => ¬ dictContains new_dict p.1)).map
    (fun p => (p.1, p.2, -p.2))

/-- Shallow embedding of `get_member_delta(old_members, new_members)` from
src/utils.py: empty-input guard returning `[]`, dict construction, names of
`new` sorted by new rating descending, per-name entries with zero deltas
dropped, then leavers appended. -/
def get_member_delta (old_members new_members : List Member) : List DeltaEntry :=
  if old_members.isEmpty || new_members.isEmpty then []
  else
    let old_dict := pyDict old_members
    let new_dict := pyDict new_members
    let names := sortByRatingDesc new_dict
    let table_entries := names.filterMap (makeEntry old_dict)
    table_entries ++ leaverEntries old_dict new_dict

/-! ### A checked variant of the delta engine

Every Python dictionary subscript can raise `KeyError`.  `get_member_delta`
contains one unguarded subscript, `old_dict[name]` in the leaver comprehension
(`new_dict.get(name, 0)` and `old_dict.get(name)` carry defaults and cannot
fail).  The checked variant makes that error path explicit by threading
`Option`; proving it always returns `some` of the total function's result shows
the function has no error path (claim C8). -/

/-- Sequence a list of optional results, failing if any element fails
(the propagation of a `KeyError` out of a list comprehension). -/
def collectSome (f : α → Option β) : List α → Option (List β)
  | [] => some []
  | a :: l =>
    match f a, collectSome f l with
    | some b, some bs => some (b :: bs)
    | _, _ => none

/-- The leaver comprehension with the `old_dict[name]` subscript modelled as a
fallible lookup. -/
def leaverEntriesChecked (old_dict new_dict : List Member) : Option (List DeltaEntry) :=
  collectSome
    (fun p => (dictLookup old_dict p.1).map (fun r => (p.1, r, -r)))
    (old_dict.filter (fun p => ¬ dictContains new_dict p.1))

/-- `get_member_delta` with its one fallible dictionary subscript explicit. -/
def get_member_deltaChecked (old_members new_members : List Member) :
    Option (List DeltaEntry) :=
  if old_members.isEmpty || new_members.isEmpty then some []
  else
    let old_dict := pyDict old_members
    let new_dict := pyDict new_members
    let names := sortByRatingDesc new_dict
    let table_entries := names.filterMap (makeEntry old_dict)
    (leaverEntriesChecked old_dict new_dict).map (fun ls => table_entries ++ ls)

/-! ### The snapshot store (src/models.py)

The store is the `clan_ratings` table with its `member_ratings` child rows; we
model it as the list of snapshots in insertion (rowid) order.  Timestamps are
Python `datetime` values, modelled by their whole-second part and microsecond
field; comparisons are by the instant they denote. -/

/-- A Python `datetime`, reduced to what the code observes: the whole-second
part and the `microsecond` field. -/
structure PyDateTime where
  sec : Int
  micro : Nat
  deriving DecidableEq, Repr

/-- The instant a `PyDateTime` denotes, in microseconds; timestamp comparison
in the store's queries is comparison of these instants. -/
def PyDateTime.toMicros (t : PyDateTime) : Int :=
  t.sec * 1000000 + (t.micro : Int)

/-- `t.replace(microsecond=0)` from `insert_rating`. -/
def replaceMicrosecond0 (t : PyDateTime) : PyDateTime :=
  { t with micro := 0 }

/-- One row of `clan_ratings` together with its `member_ratings` child rows. -/
structure Snapshot where
  timestamp : PyDateTime
  total_rating : Int
  members : List Member
  deriving DecidableEq, Repr

/-- A write failure surfaced by `get_db_session` as `SQLAlchemyError`; the one
constraint in the schema is `uix_member_per_rating` on
`(clan_rating_id, member_name)`. -/
inductive StorageError where
  | constraintViolation
  deriving DecidableEq, Repr

/-- Shallow embedding of `insert_rating(total_rating, members)`: the timestamp
is taken from the clock and truncated (`datetime.now(TIMEZONE).replace(microsecond=0)`),
the snapshot row and its member rows are committed together, and a violation of
the unique constraint on `(clan_rating_id, member_name)` — a duplicate member
name within the one snapshot — rolls the transaction back, leaving the store
unchanged and surfacing the error. -/
def insert_rating (store : List Snapshot) (clock : PyDateTime)
    (total_rating : Int) (members : List Member) :
    List Snapshot × Option StorageError :=
  let now := replaceMicrosecond0 clock
  if (members.map Prod.fst).Nodup then
    (store ++ [⟨now, total_rating, members⟩], none)
  else
    (store, some StorageError.constraintViolation)

/-- `ORDER BY timestamp DESC LIMIT 1` over a list of rows.  Among rows with
equal timestamps the scan of the descending timestamp index yields the largest
rowid first, i.e. the most recently inserted row, which the fold's `≤` realises
by letting a later element displace an equal earlier one. -/
def maxStep (acc : Option Snapshot) (s : Snapshot) : Option Snapshot :=
  match acc with
  | none => some s
  | some m => if m.timestamp.toMicros ≤ s.timestamp.toMicros then some s else some m

/-- The row produced by the `ORDER BY timestamp DESC LIMIT 1` scan. -/
def maxByTimestamp (rows : List Snapshot) : Option Snapshot :=
  rows.foldl maxStep none

/-- Shallow embedding of `get_last_rating()`: the snapshot with the maximum
timestamp, or `none` (the all-`None` triple) on an empty store. -/
def get_last_rating (store : List Snapshot) : Option Snapshot :=
  maxByTimestamp store

/-- Shallow embedding of `get_rating_at_time(target_time)`: among snapshots
with `timestamp <= target_time`, the one with the maximum timestamp, or `none`
(the all-`None` triple) when none qualifies. -/
def get_rating_at_time (store : List Snapshot) (target_time : PyDateTime) :
    Option Snapshot :=
  maxByTimestamp (store.filter (fun s => s.timestamp.toMicros ≤ target_time.toMicros))

/-! ### Dict lemmas -/

theorem foldl_dictInsert_of_nodup :
    ∀ (l acc : List Member), ((acc ++ l).map Prod.fst).Nodup →
      l.foldl dictInsert acc = acc ++ l := by
  intro l
  induction l with
  | nil => intro acc _; simp
  | cons x xs ih =>
    intro acc h
    have hx : acc.any (fun p => p.1 = x.1) = false := by
      rw [Bool.eq_false_iff]
      intro hany
      rcases List.any_eq_true.mp hany with ⟨p, hp, hpx⟩
      have hnd := h
      rw [List.map_append, List.nodup_append] at hnd
      exact hnd.2.2 (List.mem_map_of_mem Prod.fst hp)
        (by simp [of_decide_eq_true hpx])
    have hstep : dictInsert acc x = acc ++ [x] := by
      simp [dictInsert, hx]
    have h2 : (((acc ++ [x]) ++ xs).map Prod.fst).Nodup := by
      simpa using h
    calc (x :: xs).foldl dictInsert acc
        = xs.foldl dictInsert (acc ++ [x]) := by rw [List.foldl_cons, hstep]
      _ = (acc ++ [x]) ++ xs := ih (acc ++ [x]) h2
      _ = acc ++ x :: xs := by simp

/-- When the member names are duplicate-free, `dict(l)` is `l` itself. -/
theorem pyDict_eq_self {l : List Member} (h : (l.map Prod.fst).Nodup) :
    pyDict l = l := by
  simpa using foldl_dictInsert_of_nodup l [] (by simpa using h)

theorem dictContains_iff {d : List Member} {n : String} :
    dictContains d n = true ↔ n ∈ d.map Prod.fst := by
  simp [dictContains, List.any_eq_true]

theorem dictContains_of_mem {d : List Member} {p : Member} (hp : p ∈ d) :
    dictContains d p.1 = true :=
  dictContains_iff.mpr (List.mem_map_of_mem Prod.fst hp)

theorem dictLookup_eq_some {l : List Member} (h : (l.map Prod.fst).Nodup) :
    ∀ {p : Member}, p ∈ l → dictLookup l p.1 = some p.2 := by
  induction l with
  | nil => intro p hp; cases hp
  | cons q l ih =>
    intro p hp
    rcases List.mem_cons.mp hp with rfl | hmem
    · simp [dictLookup, List.find?_cons]
    · have hq : ¬ q.1 = p.1 := by
        intro he
        have : p.1 ∈ l.map Prod.fst := List.mem_map_of_mem Prod.fst hmem
        rw [List.map_cons, List.nodup_cons] at h
        exact h.1 (he ▸ this)
      have := ih (by rw [List.map_cons, List.nodup_cons] at h; exact h.2) hmem
      simpa [dictLookup, List.find?_cons, hq] using this

/-! ### Sort lemmas: membership, sortedness, stability -/

theorem mem_insertByRating {a x : Member} :
    ∀ {l : List Member}, a ∈ insertByRating x l ↔ a = x ∨ a ∈ l := by
  intro l
  induction l with
  | nil => simp [insertByRating]
  | cons y ys ih =>
    by_cases h : x.2 ≥ y.2
    · simp [insertByRating, h]
    · simp only [insertByRating, if_neg h, List.mem_cons, ih]
      tauto

theorem mem_sortByRatingDesc {a : Member} :
    ∀ {l : List Member}, a ∈ sortByRatingDesc l ↔ a ∈ l := by
  intro l
  induction l with
  | nil => simp [sortByRatingDesc]
  | cons x xs ih => simp [sortByRatingDesc, mem_insertByRating, ih]

theorem pairwise_insertByRating {x : Member} :
    ∀ {l : List Member}, l.Pairwise (fun a b => b.2 ≤ a.2) →
      (insertByRating x l).Pairwise (fun a b => b.2 ≤ a.2) := by
  intro l
  induction l with
  | nil => intro _; simp [insertByRating]
  | cons y ys ih =>
    intro h
    rw [List.pairwise_cons] at h
    by_cases hxy : x.2 ≥ y.2
    · rw [insertByRating, if_pos hxy, List.pairwise_cons]
      refine ⟨?_, List.pairwise_cons.mpr h⟩
      intro b hb
      rcases List.mem_cons.mp hb with rfl | hmem
      · exact hxy
      · exact le_trans (h.1 b hmem) hxy
    · rw [insertByRating, if_neg hxy, List.pairwise_cons]
      refine ⟨?_, ih h.2⟩
      intro b hb
      rcases mem_insertByRating.mp hb with rfl | hmem
      · exact le_of_not_ge hxy
      · exact h.1 b hmem

theorem pairwise_sortByRatingDesc :
    ∀ (l : List Member), (sortByRatingDesc l).Pairwise (fun a b => b.2 ≤ a.2) := by
  intro l
  induction l with
  | nil => simp [sortByRatingDesc]
  | cons x xs ih => exact pairwise_insertByRating ih

theorem filter_insertByRating (r : Int) (x : Member) :
    ∀ (l : List Member),
      (insertByRating x l).filter (fun p => p.2 == r) =
        if x.2 == r then x :: l.filter (fun p => p.2 == r)
        else l.filter (fun p => p.2 == r) := by
  intro l
  induction l with
  | nil =>
    by_cases h : (x.2 == r) = true <;> simp [insertByRating, List.filter, h]
  | cons y ys ih =>
    by_cases hxy : x.2 ≥ y.2
    · rw [insertByRating, if_pos hxy]
      by_cases h : (x.2 == r) = true <;> simp [List.filter_cons, h]
    · rw [insertByRating, if_neg hxy]
      by_cases hyr : (y.2 == r) = true
      · have hxr : (x.2 == r) = false := by
          rw [beq_iff_eq] at hyr
          rw [beq_eq_false_iff_ne]
          intro he
          exact hxy (by omega)
        simp [List.filter_cons, hyr, hxr, ih]
      · simp [List.filter_cons, hyr, ih]

/-- Stability of the descending sort at any rating value `r`: the sublist of
elements with rating `r` is unchanged by the sort. -/
theorem filter_sortByRatingDesc (r : Int) :
    ∀ (l : List Member),
      (sortByRatingDesc l).filter (fun p => p.2 == r) =
        l.filter (fun p => p.2 == r) := by
  intro l
  induction l with
  | nil => simp [sortByRatingDesc]
  | cons x xs ih =>
    rw [sortByRatingDesc, filter_insertByRating r x (sortByRatingDesc xs), ih]
    by_cases h : x.2 == r
    · rw [if_pos h, List.filter_cons_of_pos (by simp_all)]
    · rw [if_neg h, List.filter_cons_of_neg (by simp_all)]

/-! ### makeEntry lemmas -/

theorem makeEntry_eq_some {d : List Member} {p : Member} {e : DeltaEntry}
    (h : makeEntry d p = some e) :
    e = (p.1, p.2, deltaOf d p) ∧ deltaOf d p ≠ 0 := by
  by_cases hd : deltaOf d p ≠ 0
  · rw [makeEntry, if_pos hd] at h
    exact ⟨(Option.some_inj.mp h).symm, hd⟩
  · rw [makeEntry, if_neg hd] at h
    cases h

theorem makeEntry_isSome (d : List Member) (p : Member) :
    (makeEntry d p).isSome = (deltaOf d p != 0) := by
  by_cases hd : deltaOf d p = 0 <;> simp [makeEntry, hd]

/-! ### filterMap interaction lemmas -/

theorem filter_filterMap_eq {α β : Type} {f : α → Option β} {q : β → Bool}
    {p : α → Bool} :
    ∀ (l : List α), (∀ a ∈ l, ∀ b, f a = some b → q b = p a) →
      (l.filterMap f).filter q = (l.filter p).filterMap f := by
  intro l
  induction l with
  | nil => intro _; simp
  | cons a as ih =>
    intro h
    have ha := h a (List.mem_cons_self a as)
    have hrest := ih (fun x hx => h x (List.mem_cons_of_mem a hx))
    cases hf : f a with
    | none =>
      rw [List.filterMap_cons_none hf, hrest]
      by_cases hp : p a = true
      · rw [List.filter_cons_of_pos hp, List.filterMap_cons_none hf]
      · rw [List.filter_cons_of_neg hp]
    | some b =>
      have hqb := ha b hf
      rw [List.filterMap_cons_some hf]
      by_cases hp : p a = true
      · rw [List.filter_cons_of_pos (by rw [hqb, hp]), hrest,
          List.filter_cons_of_pos hp, List.filterMap_cons_some hf]
      · rw [List.filter_cons_of_neg (by rw [hqb]; exact hp), hrest,
          List.filter_cons_of_neg hp]

theorem map_filterMap_eq {α β γ : Type} {f : α → Option β} {g : β → γ}
    {h : α → γ} :
    ∀ (l : List α), (∀ a ∈ l, ∀ b, f a = some b → g b = h a) →
      (l.filterMap f).map g = (l.filter (fun a => (f a).isSome)).map h := by
  intro l
  induction l with
  | nil => intro _; simp
  | cons a as ih =>
    intro hh
    have ha := hh a (List.mem_cons_self a as)
    have hrest := ih (fun x hx => hh x (List.mem_cons_of_mem a hx))
    cases hf : f a with
    | none =>
      rw [List.filterMap_cons_none hf, hrest,
        List.filter_cons_of_neg (by rw [hf]; simp)]
    | some b =>
      rw [List.filterMap_cons_some hf, List.map_cons, hrest,
        List.filter_cons_of_pos (by rw [hf]; simp), List.map_cons, ha b hf]

/-! ### Structural form of the delta computation on well-formed inputs -/

/-- On duplicate-free non-empty inputs, `get_member_delta` is exactly: the
new snapshot sorted by rating descending, passed through the entry maker
(which drops zero deltas), followed by the leavers taken from the old
snapshot in its own order. -/
theorem get_member_delta_eq {old_members new_members : List Member}
    (hold : (old_members.map Prod.fst).Nodup)
    (hnew : (new_members.map Prod.fst).Nodup)
    (h1 : old_members ≠ []) (h2 : new_members ≠ []) :
    get_member_delta old_members new_members =
      (sortByRatingDesc new_members).filterMap (makeEntry old_members) ++
        leaverEntries old_members new_members := by
  have hc1 : old_members.isEmpty = false := List.isEmpty_eq_false.mpr h1
  have hc2 : new_members.isEmpty = false := List.isEmpty_eq_false.mpr h2
  simp only [get_member_delta, hc1, hc2, Bool.or_self, Bool.false_eq_true,
    if_false, pyDict_eq_self hold, pyDict_eq_self hnew]

/-! ### maxByTimestamp lemmas -/

theorem foldl_maxStep_some :
    ∀ (l : List Snapshot) (a : Snapshot),
      ∃ b, l.foldl maxStep (some a) = some b ∧ (b = a ∨ b ∈ l) ∧
        a.timestamp.toMicros ≤ b.timestamp.toMicros ∧
        ∀ s ∈ l, s.timestamp.toMicros ≤ b.timestamp.toMicros := by
  intro l
  induction l with
  | nil => intro a; exact ⟨a, rfl, Or.inl rfl, le_refl _, by simp⟩
  | cons s l ih =>
    intro a
    by_cases hle : a.timestamp.toMicros ≤ s.timestamp.toMicros
    · have hstep : maxStep (some a) s = some s := by simp [maxStep, hle]
      rcases ih s with ⟨b, hb, hmem, hsb, hall⟩
      refine ⟨b, ?_, ?_, le_trans hle hsb, ?_⟩
      · rw [List.foldl_cons, hstep]; exact hb
      · rcases hmem with rfl | hbl
        · exact Or.inr (List.mem_cons_self b l)
        · exact Or.inr (List.mem_cons_of_mem s hbl)
      · intro t ht
        rcases List.mem_cons.mp ht with rfl | htl
        · exact hsb
        · exact hall t htl
    · have hstep : maxStep (some a) s = some a := by simp [maxStep, hle]
      rcases ih a with ⟨b, hb, hmem, hab, hall⟩
      refine ⟨b, ?_, ?_, hab, ?_⟩
      · rw [List.foldl_cons, hstep]; exact hb
      · rcases hmem with rfl | hbl
        · exact Or.inl rfl
        · exact Or.inr (List.mem_cons_of_mem s hbl)
      · intro t ht
        rcases List.mem_cons.mp ht with rfl | htl
        · exact le_trans (le_of_lt (not_le.mp hle)) hab
        · exact hall t htl

theorem maxByTimestamp_cons (s : Snapshot) (l : List Snapshot) :
    maxByTimestamp (s :: l) = l.foldl maxStep (some s) := rfl

theorem maxByTimestamp_spec {l : List Snapshot} {b : Snapshot}
    (h : maxByTimestamp l = some b) :
    b ∈ l ∧ ∀ s ∈ l, s.timestamp.toMicros ≤ b.timestamp.toMicros := by
  cases l with
  | nil => cases h
  | cons s l =>
    rw [maxByTimestamp_cons] at h
    rcases foldl_maxStep_some l s with ⟨b', hb', hmem, hsb, hall⟩
    rw [h, Option.some_inj] at hb'
    subst hb'
    refine ⟨?_, ?_⟩
    · rcases hmem with rfl | hbl
      · exact List.mem_cons_self b l
      · exact List.mem_cons_of_mem s hbl
    · intro t ht
      rcases List.mem_cons.mp ht with rfl | htl
      · exact hsb
      · exact hall t htl

theorem maxByTimestamp_isSome {l : List Snapshot} (h : l ≠ []) :
    ∃ b, maxByTimestamp l = some b := by
  cases l with
  | nil => exact absurd rfl h
  | cons s l =>
    rw [maxByTimestamp_cons]
    rcases foldl_maxStep_some l s with ⟨b, hb, _⟩
    exact ⟨b, hb⟩

theorem maxByTimestamp_append_last {l : List Snapshot} {x : Snapshot}
    (h : ∀ s ∈ l, s.timestamp.toMicros ≤ x.timestamp.toMicros) :
    maxByTimestamp (l ++ [x]) = some x := by
  rw [maxByTimestamp, List.foldl_append]
  cases hl : l.foldl maxStep none with
  | none => rfl
  | some m =>
    have hm := maxByTimestamp_spec (l := l) hl
    have hmx : m.timestamp.toMicros ≤ x.timestamp.toMicros := h m hm.1
    simp [List.foldl, maxStep, hmx]

theorem collectSome_eq_map {α β : Type} {f : α → Option β} {g : α → β} :
    ∀ (l : List α), (∀ a ∈ l, f a = some (g a)) →
      collectSome f l = some (l.map g) := by
  intro l
  induction l with
  | nil => intro _; rfl
  | cons a as ih =>
    intro h
    simp only [collectSome, h a (List.mem_cons_self a as),
      ih (fun x hx => h x (List.mem_cons_of_mem a hx)), List.map_cons]

/-! ## The claims -/

/-- C5: on `old = [(A,100),(B,50)]` and `new = [(A,120),(C,10)]`,
`get_member_delta` returns exactly `[(A,120,+20), (C,10,+10), (B,50,-50)]`
in that order. -/
theorem get_member_delta_example :
    get_member_delta [("A", 100), ("B", 50)] [("A", 120), ("C", 10)] =
      [("A", 120, 20), ("C", 10, 10), ("B", 50, -50)] := by decide

/-- C1 counterexample: with a non-empty old snapshot and an empty new member
list, `get_member_delta` returns `[]` rather than the leaver entry
`("A", 100, -100)` the claim requires; symmetrically, with an empty old list
it returns `[]` rather than the new-member entry. -/
theorem get_member_delta_empty_counterexample :
    get_member_delta [("A", 100)] [] = [] ∧
      ([] : List DeltaEntry) ≠ [("A", 100, -100)] ∧
      get_member_delta [] [("A", 100)] = [] ∧
      ([] : List DeltaEntry) ≠ [("A", 100, 100)] := by decide

/-- C1 amended: when either input member list is empty, `get_member_delta`
returns the empty list (the guard at the top of the function fires before any
leaver or new-member accounting). -/
theorem get_member_delta_empty (old_members new_members : List Member)
    (h : old_members = [] ∨ new_members = []) :
    get_member_delta old_members new_members = [] := by
  rcases h with rfl | rfl <;> simp [get_member_delta]

/-- C1 amended, witness at a concrete input. -/
theorem get_member_delta_empty_witness :
    get_member_delta [("B", 50)] [] = [] :=
  get_member_delta_empty [("B", 50)] [] (Or.inr rfl)

/-- C3: diffing a non-empty, duplicate-free snapshot against itself yields the
empty sequence: every still-present entry has change 0 and is dropped, and
there are no leavers. -/
theorem get_member_delta_self (s : List Member)
    (hs : (s.map Prod.fst).Nodup) (hne : s ≠ []) :
    get_member_delta s s = [] := by
  rw [get_member_delta_eq hs hs hne hne]
  have h1 : (sortByRatingDesc s).filterMap (makeEntry s) = [] := by
    rw [List.filterMap_eq_nil_iff]
    intro p hp
    have hmem : p ∈ s := mem_sortByRatingDesc.mp hp
    have hz : deltaOf s p = 0 := by
      simp [deltaOf, dictLookup_eq_some hs hmem]
    simp [makeEntry, hz]
  have h2 : leaverEntries s s = [] := by
    rw [leaverEntries]
    have hf : s.filter (fun p => ¬ dictContains s p.1) = [] := by
      rw [List.filter_eq_nil_iff]
      intro p hp
      simp [dictContains_of_mem hp]
    rw [hf, List.map_nil]
  rw [h1, h2, List.nil_append]

/-- C3, witness at a concrete input. -/
theorem get_member_delta_self_witness :
    get_member_delta [("A", 7), ("B", 3)] [("A", 7), ("B", 3)] = [] :=
  get_member_delta_self [("A", 7), ("B", 3)] (by decide) (by decide)

/-- C8: `get_member_delta` is total with no error path: the checked variant,
in which the one unguarded dictionary subscript (`old_dict[name]` in the
leaver comprehension) is modelled as fallible, always returns `some` of the
total function's result. -/
theorem get_member_delta_total (old_members new_members : List Member)
    (hold : (old_members.map Prod.fst).Nodup)
    (hnew : (new_members.map Prod.fst).Nodup) :
    get_member_deltaChecked old_members new_members =
      some (get_member_delta old_members new_members) := by
  by_cases hc : (old_members.isEmpty || new_members.isEmpty) = true
  · simp only [get_member_deltaChecked, get_member_delta, if_pos hc]
  · have hld : leaverEntriesChecked (pyDict old_members) (pyDict new_members) =
        some (leaverEntries (pyDict old_members) (pyDict new_members)) := by
      rw [pyDict_eq_self hold, pyDict_eq_self hnew,
        leaverEntriesChecked, leaverEntries]
      apply collectSome_eq_map
      intro p hp
      have hmem : p ∈ old_members := (List.mem_filter.mp hp).1
      rw [dictLookup_eq_some hold hmem]
      rfl
    simp only [get_member_deltaChecked, get_member_delta, if_neg hc, hld,
      Option.map_some']

/-- C8, witness at a concrete input. -/
theorem get_member_delta_total_witness :
    get_member_deltaChecked [("A", 1)] [("B", 2)] =
      some (get_member_delta [("A", 1)] [("B", 2)]) :=
  get_member_delta_total [("A", 1)] [("B", 2)] (by decide) (by decide)

/-- C4: on duplicate-free inputs the output splits into two segments: first
the still-present entries (names that are keys of `new`), ordered by new
rating descending, then the leaver entries (names absent from `new`); on
non-empty inputs the leaver segment is exactly the old snapshot's
non-surviving members in the old snapshot's own order. -/
theorem get_member_delta_two_segments (old_members new_members : List Member)
    (hold : (old_members.map Prod.fst).Nodup)
    (hnew : (new_members.map Prod.fst).Nodup) :
    ∃ present leavers,
      get_member_delta old_members new_members = present ++ leavers ∧
      (∀ e ∈ present, dictContains new_members e.1 = true) ∧
      present.Pairwise (fun a b => b.2.1 ≤ a.2.1) ∧
      (∀ e ∈ leavers, dictContains new_members e.1 = false) ∧
      (old_members ≠ [] → new_members ≠ [] →
        leavers =
          (old_members.filter (fun p => ¬ dictContains new_members p.1)).map
            (fun p => (p.1, p.2, -p.2))) := by
  by_cases h1 : old_members = []
  · refine ⟨[], [], by simp [get_member_delta, h1], by simp, by simp, by simp,
      fun h _ => absurd h1 h⟩
  by_cases h2 : new_members = []
  · refine ⟨[], [], by simp [get_member_delta, h2], by simp, by simp, by simp,
      fun _ h => absurd h2 h⟩
  refine ⟨(sortByRatingDesc new_members).filterMap (makeEntry old_members),
    leaverEntries old_members new_members,
    get_member_delta_eq hold hnew h1 h2, ?_, ?_, ?_, fun _ _ => rfl⟩
  · intro e he
    rcases List.mem_filterMap.mp he with ⟨p, hp, hmk⟩
    rcases makeEntry_eq_some hmk with ⟨rfl, _⟩
    exact dictContains_of_mem (mem_sortByRatingDesc.mp hp)
  · refine List.Pairwise.filterMap (makeEntry old_members) ?_
      (pairwise_sortByRatingDesc new_members)
    intro a a' hr b hb b' hb'
    rcases makeEntry_eq_some (Option.mem_def.mp hb) with ⟨rfl, _⟩
    rcases makeEntry_eq_some (Option.mem_def.mp hb') with ⟨rfl, _⟩
    exact hr
  · intro e he
    rw [leaverEntries] at he
    rcases List.mem_map.mp he with ⟨p, hp, rfl⟩
    have hnc := (List.mem_filter.mp hp).2
    simpa using hnc

/-- C4, witness at a concrete input. -/
theorem get_member_delta_two_segments_witness :
    ∃ present leavers,
      get_member_delta [("A", 100), ("B", 50)] [("A", 120), ("C", 10)] =
        present ++ leavers ∧
      (∀ e ∈ present,
        dictContains [("A", 120), ("C", 10)] e.1 = true) ∧
      present.Pairwise (fun a b => b.2.1 ≤ a.2.1) ∧
      (∀ e ∈ leavers,
        dictContains [("A", 120), ("C", 10)] e.1 = false) ∧
      (([("A", 100), ("B", 50)] : List Member) ≠ [] →
        ([("A", 120), ("C", 10)] : List Member) ≠ [] →
        leavers =
          (([("A", 100), ("B", 50)] : List Member).filter
              (fun p => ¬ dictContains [("A", 120), ("C", 10)] p.1)).map
            (fun p => (p.1, p.2, -p.2))) :=
  get_member_delta_two_segments [("A", 100), ("B", 50)] [("A", 120), ("C", 10)]
    (by decide) (by decide)

/-- C9: the implementation's tie-break is deterministic and stable: for any
rating value `r`, the names of still-present output entries whose current
rating is `r` appear in exactly the order in which the corresponding members
occur in the new snapshot's own list (restricted to those surviving the
zero-change drop). -/
theorem get_member_delta_tie_break (old_members new_members : List Member)
    (r : Int)
    (hold : (old_members.map Prod.fst).Nodup)
    (hnew : (new_members.map Prod.fst).Nodup)
    (h1 : old_members ≠ []) (h2 : new_members ≠ []) :
    ((get_member_delta old_members new_members).filter
        (fun e => (e.2.1 == r) && dictContains new_members e.1)).map
      (fun e => e.1) =
      (new_members.filter
          (fun p => (p.2 == r) && (deltaOf old_members p != 0))).map
        (fun p => p.1) := by
  rw [get_member_delta_eq hold hnew h1 h2, List.filter_append]
  have hlv : (leaverEntries old_members new_members).filter
      (fun e => (e.2.1 == r) && dictContains new_members e.1) = [] := by
    rw [List.filter_eq_nil_iff]
    intro e he
    rw [leaverEntries] at he
    rcases List.mem_map.mp he with ⟨p, hp, rfl⟩
    have hnc := (List.mem_filter.mp hp).2
    simp only [decide_eq_true_eq] at hnc
    simp [hnc]
  rw [hlv, List.append_nil]
  have hstep1 : ((sortByRatingDesc new_members).filterMap
        (makeEntry old_members)).filter
      (fun e => (e.2.1 == r) && dictContains new_members e.1) =
      ((sortByRatingDesc new_members).filter (fun p => p.2 == r)).filterMap
        (makeEntry old_members) := by
    apply filter_filterMap_eq
    intro a ha b hfb
    rcases makeEntry_eq_some hfb with ⟨rfl, _⟩
    have hca : dictContains new_members a.1 = true :=
      dictContains_of_mem (mem_sortByRatingDesc.mp ha)
    simp [hca]
  rw [hstep1, filter_sortByRatingDesc]
  have hstep2 : ((new_members.filter (fun p => p.2 == r)).filterMap
        (makeEntry old_members)).map (fun e => e.1) =
      ((new_members.filter (fun p => p.2 == r)).filter
          (fun a => (makeEntry old_members a).isSome)).map (fun p => p.1) := by
    apply map_filterMap_eq
    intro a ha b hfb
    rcases makeEntry_eq_some hfb with ⟨rfl, _⟩
    rfl
  rw [hstep2, List.filter_filter]
  congr 1
  apply List.filter_congr
  intro a ha
  rw [makeEntry_isSome, Bool.and_comm]

/-- C9, witness at a concrete input with a genuine rating tie. -/
theorem get_member_delta_tie_break_witness :
    ((get_member_delta [("A", 1), ("B", 2)] [("B", 5), ("A", 5)]).filter
        (fun e => (e.2.1 == (5 : Int)) &&
          dictContains [("B", 5), ("A", 5)] e.1)).map (fun e => e.1) =
      (([("B", 5), ("A", 5)] : List Member).filter
          (fun p => (p.2 == (5 : Int)) &&
            (deltaOf [("A", 1), ("B", 2)] p != 0))).map (fun p => p.1) :=
  get_member_delta_tie_break [("A", 1), ("B", 2)] [("B", 5), ("A", 5)] 5
    (by decide) (by decide) (by decide) (by decide)

/-- C2: `get_rating_at_time t` returns the stored snapshot with the maximum
timestamp `≤ t` — `none` when `t` is strictly below every stored timestamp, a
qualifying and dominating store element whenever the result is `some`, the
exactly matching snapshot (not an earlier one) when `t` equals a stored
timestamp, and (completeness) a `some` result whenever any stored snapshot
qualifies, exact timestamp hit or not. -/
theorem get_rating_at_time_correct (store : List Snapshot) (t : PyDateTime)
    (hnd : (store.map (fun s => s.timestamp.toMicros)).Nodup) :
    ((∀ s ∈ store, t.toMicros < s.timestamp.toMicros) →
        get_rating_at_time store t = none) ∧
    (∀ r, get_rating_at_time store t = some r →
        r ∈ store ∧ r.timestamp.toMicros ≤ t.toMicros ∧
        ∀ s ∈ store, s.timestamp.toMicros ≤ t.toMicros →
          s.timestamp.toMicros ≤ r.timestamp.toMicros) ∧
    (∀ s ∈ store, s.timestamp = t → get_rating_at_time store t = some s) ∧
    ((∃ s ∈ store, s.timestamp.toMicros ≤ t.toMicros) →
        ∃ r, get_rating_at_time store t = some r) := by
  refine ⟨?_, ?_, ?_, ?_⟩
  · intro hall
    rw [get_rating_at_time]
    have hf : store.filter (fun s => s.timestamp.toMicros ≤ t.toMicros) = [] := by
      rw [List.filter_eq_nil_iff]
      intro s hs
      simpa using not_le.mpr (hall s hs)
    rw [hf]
    rfl
  · intro r hr
    rw [get_rating_at_time] at hr
    rcases maxByTimestamp_spec hr with ⟨hmem, hall⟩
    have hm := List.mem_filter.mp hmem
    refine ⟨hm.1, by simpa using hm.2, ?_⟩
    intro s hs hst
    exact hall s (List.mem_filter.mpr ⟨hs, by simpa using hst⟩)
  · intro s hs hst
    subst hst
    have hsf : s ∈ store.filter
        (fun x => x.timestamp.toMicros ≤ s.timestamp.toMicros) :=
      List.mem_filter.mpr ⟨hs, by simp⟩
    have hne : store.filter
        (fun x => x.timestamp.toMicros ≤ s.timestamp.toMicros) ≠ [] := by
      intro h0
      rw [h0] at hsf
      cases hsf
    rcases maxByTimestamp_isSome hne with ⟨b, hb⟩
    rcases maxByTimestamp_spec hb with ⟨hbmem, hball⟩
    have hbf := List.mem_filter.mp hbmem
    have hle1 : b.timestamp.toMicros ≤ s.timestamp.toMicros := by
      simpa using hbf.2
    have hle2 : s.timestamp.toMicros ≤ b.timestamp.toMicros := hball s hsf
    have hbs : b = s :=
      List.inj_on_of_nodup_map hnd hbf.1 hs (le_antisymm hle1 hle2)
    rw [get_rating_at_time, hb, hbs]
  · rintro ⟨s, hs, hle⟩
    have hsf : s ∈ store.filter
        (fun x => x.timestamp.toMicros ≤ t.toMicros) :=
      List.mem_filter.mpr ⟨hs, by simpa using hle⟩
    have hne : store.filter
        (fun x => x.timestamp.toMicros ≤ t.toMicros) ≠ [] := by
      intro h0
      rw [h0] at hsf
      cases hsf
    rw [get_rating_at_time]
    exact maxByTimestamp_isSome hne

/-- C2, witness: with snapshots at seconds 10 and 20, a query at the non-exact
instant 15 returns a snapshot, and a query at exactly second 10 returns the
second-10 snapshot, not the later one. -/
theorem get_rating_at_time_correct_witness :
    (∃ r, get_rating_at_time
        [⟨⟨10, 0⟩, 5, [("A", 5)]⟩, ⟨⟨20, 0⟩, 9, [("A", 9)]⟩] ⟨15, 0⟩ =
      some r) ∧
    get_rating_at_time
        [⟨⟨10, 0⟩, 5, [("A", 5)]⟩, ⟨⟨20, 0⟩, 9, [("A", 9)]⟩] ⟨10, 0⟩ =
      some ⟨⟨10, 0⟩, 5, [("A", 5)]⟩ :=
  ⟨(get_rating_at_time_correct
      [⟨⟨10, 0⟩, 5, [("A", 5)]⟩, ⟨⟨20, 0⟩, 9, [("A", 9)]⟩] ⟨15, 0⟩
      (by decide)).2.2.2 ⟨⟨⟨10, 0⟩, 5, [("A", 5)]⟩, by decide, by decide⟩,
   (get_rating_at_time_correct
      [⟨⟨10, 0⟩, 5, [("A", 5)]⟩, ⟨⟨20, 0⟩, 9, [("A", 9)]⟩] ⟨10, 0⟩
      (by decide)).2.2.1 ⟨⟨10, 0⟩, 5, [("A", 5)]⟩ (by decide) rfl⟩

/-- C6: a successful `insert_rating` followed immediately by
`get_last_rating` returns the just-appended snapshot, for any prior store
whose timestamps do not exceed the new (truncated) clock value. -/
theorem insert_then_latest (store : List Snapshot) (clock : PyDateTime)
    (total_rating : Int) (members : List Member)
    (hmono : ∀ s ∈ store,
      s.timestamp.toMicros ≤ (replaceMicrosecond0 clock).toMicros)
    (hnd : (members.map Prod.fst).Nodup) :
    (insert_rating store clock total_rating members).2 = none ∧
    get_last_rating (insert_rating store clock total_rating members).1 =
      some ⟨replaceMicrosecond0 clock, total_rating, members⟩ := by
  have h1 : insert_rating store clock total_rating members =
      (store ++ [⟨replaceMicrosecond0 clock, total_rating, members⟩], none) := by
    simp [insert_rating, hnd]
  rw [h1]
  exact ⟨rfl, maxByTimestamp_append_last hmono⟩

/-- C6, witness at a concrete input. -/
theorem insert_then_latest_witness :
    (insert_rating [⟨⟨3, 0⟩, 2, [("A", 2)]⟩] ⟨5, 123⟩ 10 [("A", 10)]).2 =
        none ∧
    get_last_rating
        (insert_rating [⟨⟨3, 0⟩, 2, [("A", 2)]⟩] ⟨5, 123⟩ 10 [("A", 10)]).1 =
      some ⟨replaceMicrosecond0 ⟨5, 123⟩, 10, [("A", 10)]⟩ :=
  insert_then_latest [⟨⟨3, 0⟩, 2, [("A", 2)]⟩] ⟨5, 123⟩ 10 [("A", 10)]
    (by decide) (by decide)

/-- C7: `insert_rating` with a duplicate member name within the one snapshot
violates the `(clan_rating_id, member_name)` unique constraint: the error is
surfaced and the stored state is unchanged. -/
theorem insert_rating_duplicate_fails (store : List Snapshot)
    (clock : PyDateTime) (total_rating : Int) (members : List Member)
    (hdup : ¬ (members.map Prod.fst).Nodup) :
    insert_rating store clock total_rating members =
      (store, some StorageError.constraintViolation) := by
  simp [insert_rating, hdup]

/-- C7, witness at a concrete input. -/
theorem insert_rating_duplicate_fails_witness :
    insert_rating [] ⟨0, 0⟩ 3 [("A", 1), ("A", 2)] =
      ([], some StorageError.constraintViolation) :=
  insert_rating_duplicate_fails [] ⟨0, 0⟩ 3 [("A", 1), ("A", 2)] (by decide)

/-- C10: the persisted timestamp is taken from the clock at insertion time and
truncated to whole seconds (microsecond field zero); two successful inserts
whose clocks fall within the same second persist equal timestamps. -/
theorem insert_rating_truncates_clock (store : List Snapshot)
    (clock clock2 : PyDateTime) (total_rating : Int) (members : List Member)
    (hnd : (members.map Prod.fst).Nodup) (hsec : clock2.sec = clock.sec) :
    (insert_rating store clock total_rating members).1 =
      store ++ [⟨⟨clock.sec, 0⟩, total_rating, members⟩] ∧
    (insert_rating store clock2 total_rating members).1 =
      store ++ [⟨⟨clock.sec, 0⟩, total_rating, members⟩] := by
  constructor <;> simp [insert_rating, hnd, replaceMicrosecond0, hsec]

/-- C10, witness: two clocks in second 7 with different microseconds persist
the same truncated timestamp. -/
theorem insert_rating_truncates_clock_witness :
    (insert_rating [] ⟨7, 999⟩ 1 [("A", 1)]).1 =
        [] ++ [⟨⟨7, 0⟩, 1, [("A", 1)]⟩] ∧
    (insert_rating [] ⟨7, 5⟩ 1 [("A", 1)]).1 =
        [] ++ [⟨⟨7, 0⟩, 1, [("A", 1)]⟩] :=
  insert_rating_truncates_clock [] ⟨7, 999⟩ ⟨7, 5⟩ 1 [("A", 1)]
    (by decide) rfl

end AfiTracker
